import Mathlib

/-!
Verification of the aggregation and incremental-delivery core of the
brand-mention monitor in src/backend/main.py.  Each Python function used
by a claim is embedded as an executable Lean definition; stateful parts
(the global corpus, the watch set, the event stream of one orchestrator
run) are embedded as explicit state passing over lists.  Strings are
modelled with Lean strings, with ASCII models of str.lower / str.strip,
and instants (timestamps, durations) as integers.
-/

set_option linter.unusedVariables false
set_option maxRecDepth 1024

namespace AnEarOut

/-- A mention record exactly as the connectors build it: all fields are
strings on the wire (timestamp is the ISO string produced by the source
parser). -/
structure Mention where
  platform : String
  source : String
  text : String
  sentiment : String
  url : String
  timestamp : String
deriving DecidableEq, Repr

/-- Python 3 round() applied to the exact rational num/den (with den > 0):
round half to even.  The code rounds (count/total)*100; we model the exact
rational value of that expression. -/
def pyRound (num den : Nat) : Nat :=
  let q := num / den
  let r := num % den
  if 2 * r < den then q
  else if den < 2 * r then q + 1
  else if q % 2 = 0 then q else q + 1

/-- Result shape of analyze_mention_summary.  POSITIVE and NEGATIVE come
out of round() as naturals; NEUTRAL is the Python int 100 - pos - neg,
kept as an integer. -/
structure Summary where
  positive : Nat
  negative : Nat
  neutral : Int
deriving DecidableEq, Repr

/-- Counter(m['sentiment'] for m in all_mentions).get(lab, 0). -/
def countSentiment (ms : List Mention) (lab : String) : Nat :=
  (ms.filter (fun m => m.sentiment = lab)).length

/-- analyze_mention_summary from src/backend/main.py: percentage breakdown
with NEUTRAL computed as the remainder 100 - positive_pct - negative_pct. -/
def analyze_mention_summary (all_mentions : List Mention) : Summary :=
  if all_mentions.isEmpty then ⟨0, 0, 0⟩
  else
    let total := all_mentions.length
    let positive_pct := pyRound (countSentiment all_mentions "POSITIVE" * 100) total
    let negative_pct := pyRound (countSentiment all_mentions "NEGATIVE" * 100) total
    ⟨positive_pct, negative_pct, 100 - (positive_pct : Int) - (negative_pct : Int)⟩

theorem pyRound_zero_num (den : Nat) (h : 0 < den) : pyRound 0 den = 0 := by
  unfold pyRound
  simp [Nat.zero_div, Nat.zero_mod, h]

/-- C5: for every non-empty mention list the three percentages sum to
exactly 100; POSITIVE and NEGATIVE are the rounded integer shares of the
total and NEUTRAL is 100 minus those two, so rounding error lands in
NEUTRAL only. -/
theorem summary_sums_to_100 (ms : List Mention) (h : ms ≠ []) :
    ((analyze_mention_summary ms).positive : Int) + ((analyze_mention_summary ms).negative : Int)
      + (analyze_mention_summary ms).neutral = 100 ∧
    (analyze_mention_summary ms).positive = pyRound (countSentiment ms "POSITIVE" * 100) ms.length ∧
    (analyze_mention_summary ms).negative = pyRound (countSentiment ms "NEGATIVE" * 100) ms.length ∧
    (analyze_mention_summary ms).neutral
      = 100 - ((analyze_mention_summary ms).positive : Int) - ((analyze_mention_summary ms).negative : Int) := by
  have hne : ms.isEmpty = false := by
    cases ms with
    | nil => exact absurd rfl h
    | cons a l => rfl
  unfold analyze_mention_summary
  rw [hne]
  simp only [Bool.false_eq_true, if_false]
  refine ⟨by ring, trivial, trivial, trivial⟩

/-- Witness for summary_sums_to_100 at a concrete one-element list. -/
theorem summary_sums_to_100_witness :
    (([⟨"News", "s", "t", "POSITIVE", "u", "ts"⟩] : List Mention) ≠ []) ∧
    (((analyze_mention_summary [⟨"News", "s", "t", "POSITIVE", "u", "ts"⟩]).positive : Int)
      + ((analyze_mention_summary [⟨"News", "s", "t", "POSITIVE", "u", "ts"⟩]).negative : Int)
      + (analyze_mention_summary [⟨"News", "s", "t", "POSITIVE", "u", "ts"⟩]).neutral = 100) :=
  ⟨by decide, (summary_sums_to_100 _ (by decide)).1⟩

/-- C10: NEUTRAL mentions are never counted directly; with no POSITIVE and
no NEGATIVE labels in a non-empty list the summary is exactly
(0, 0, 100). -/
theorem summary_all_neutral (ms : List Mention) (h : ms ≠ [])
    (hn : ∀ m ∈ ms, m.sentiment ≠ "POSITIVE" ∧ m.sentiment ≠ "NEGATIVE") :
    analyze_mention_summary ms = ⟨0, 0, 100⟩ := by
  have hne : ms.isEmpty = false := by
    cases ms with
    | nil => exact absurd rfl h
    | cons a l => rfl
  have hlen : 0 < ms.length := by
    cases ms with
    | nil => exact absurd rfl h
    | cons a l => exact Nat.succ_pos _
  have hpos : countSentiment ms "POSITIVE" = 0 := by
    unfold countSentiment
    rw [List.length_eq_zero]
    rw [List.filter_eq_nil_iff]
    intro m hm
    simp only [decide_eq_true_eq]
    exact (hn m hm).1
  have hneg : countSentiment ms "NEGATIVE" = 0 := by
    unfold countSentiment
    rw [List.length_eq_zero]
    rw [List.filter_eq_nil_iff]
    intro m hm
    simp only [decide_eq_true_eq]
    exact (hn m hm).2
  unfold analyze_mention_summary
  rw [hne]
  simp only [hpos, hneg, Nat.zero_mul, pyRound_zero_num ms.length hlen]
  rfl

/-- Witness for summary_all_neutral at a concrete all-NEUTRAL list. -/
theorem summary_all_neutral_witness :
    analyze_mention_summary [⟨"News", "s", "t", "NEUTRAL", "u", "ts"⟩] = ⟨0, 0, 100⟩ :=
  summary_all_neutral _ (by decide) (by decide)

/-- global_word_corpus is deque(maxlen=2000); extend appends on the right
and evicts from the left once over capacity, so the state after an extend
is the last 2000 elements of old-contents ++ new-words. -/
def corpusExtend (buf ws : List String) : List String :=
  let l := buf ++ ws
  l.drop (l.length - 2000)

/-- The last n elements of a list (drop all but n from the front). -/
def lastN (n : Nat) (l : List String) : List String := l.drop (l.length - n)

theorem lastN_length_le (n : Nat) (l : List String) : (lastN n l).length ≤ n := by
  unfold lastN
  rw [List.length_drop]
  omega

theorem corpusExtend_eq_lastN (buf ws : List String) :
    corpusExtend buf ws = lastN 2000 (buf ++ ws) := rfl

theorem corpusExtend_length_le (buf ws : List String) :
    (corpusExtend buf ws).length ≤ 2000 := by
  rw [corpusExtend_eq_lastN]
  exact lastN_length_le 2000 (buf ++ ws)

theorem foldl_corpusExtend_length_le (pushes : List (List String)) (acc : List String)
    (hacc : acc.length ≤ 2000) : (pushes.foldl corpusExtend acc).length ≤ 2000 := by
  induction pushes generalizing acc with
  | nil => exact hacc
  | cons p rest ih =>
    rw [List.foldl_cons]
    exact ih (corpusExtend acc p) (corpusExtend_length_le acc p)

/-- C6: the corpus buffer never exceeds 2000 words over any sequence of
pushes; an extend keeps exactly the most recent 2000 of old ++ new
(oldest evicted first); and pushing a single batch of 2500 words into an
empty buffer leaves exactly the most recent 2000 of them. -/
theorem corpus_bounded_and_evicts_oldest :
    (∀ pushes : List (List String), (pushes.foldl corpusExtend []).length ≤ 2000) ∧
    (∀ buf ws : List String, corpusExtend buf ws = lastN 2000 (buf ++ ws)) ∧
    (∀ ws : List String, ws.length = 2500 →
      corpusExtend [] ws = ws.drop 500 ∧ (corpusExtend [] ws).length = 2000) := by
  refine ⟨fun pushes => foldl_corpusExtend_length_le pushes [] (by simp),
    corpusExtend_eq_lastN, fun ws h => ?_⟩
  constructor
  · rw [corpusExtend_eq_lastN, List.nil_append]
    unfold lastN
    rw [h]
  · rw [corpusExtend_eq_lastN, List.nil_append]
    unfold lastN
    rw [List.length_drop]
    omega

/-- Witness for corpus_bounded_and_evicts_oldest: a concrete batch of 2500
distinct words leaves its most recent 2000. -/
theorem corpus_bounded_witness :
    corpusExtend [] ((List.range 2500).map toString) = ((List.range 2500).map toString).drop 500 ∧
    (corpusExtend [] ((List.range 2500).map toString)).length = 2000 :=
  corpus_bounded_and_evicts_oldest.2.2 ((List.range 2500).map toString)
    (by rw [List.length_map, List.length_range])

/-- One step of Counter construction over the buffer.  Python dicts keep
insertion order, so the first occurrence of a word appends a fresh entry
at the end and every later occurrence bumps the stored count in place. -/
def bumpWord (acc : List (String × Nat)) (w : String) : List (String × Nat) :=
  if acc.any (fun e => e.1 = w) then
    acc.map (fun e => if e.1 = w then (e.1, e.2 + 1) else e)
  else acc ++ [(w, 1)]

/-- Counter(global_word_corpus).items(): word/count pairs in first
occurrence order of the buffer (oldest first, as the deque iterates). -/
def counterItems (buf : List String) : List (String × Nat) := buf.foldl bumpWord []

/-- Stable insertion for a sort descending by count: entries already in
the list with strictly greater count stay ahead, and on equal counts the
incoming entry goes first (in sortByCount the incoming entry is the one
that occurs earlier in the original list).  Counter.most_common(n) is
documented as equivalent to sorted(items, key=count, reverse=True)[:n],
a stable descending sort; this insertion sort computes that list. -/
def insByCount (x : String × Nat) : List (String × Nat) → List (String × Nat)
  | [] => [x]
  | y :: l => if x.2 < y.2 then y :: insByCount x l else x :: y :: l

def sortByCount (l : List (String × Nat)) : List (String × Nat) := l.foldr insByCount []

/-- The word list produced by Counter(buf).most_common(20) in
update_and_get_global_topics. -/
def mostCommonWords (buf : List String) : List String :=
  ((sortByCount (counterItems buf)).take 20).map (fun e => e.1)

def dedupStep (acc : List String) (w : String) : List String :=
  if w ∈ acc then acc else acc ++ [w]

/-- Modelled from the spec's words: the distinct words of the buffer in
first-occurrence order. -/
def dedupFirst (l : List String) : List String := l.foldl dedupStep []

/-- Modelled from the spec's words: each distinct word of the buffer with
its frequency, in first-occurrence order. -/
def specItems (buf : List String) : List (String × Nat) :=
  (dedupFirst buf).map (fun w => (w, buf.count w))

/-- Modelled from the spec's words: insertion for the total order "more
frequent first; on equal frequency, earlier first occurrence first".
The Nat component is the first-occurrence rank of the word. -/
def insLex (x : Nat × String × Nat) : List (Nat × String × Nat) → List (Nat × String × Nat)
  | [] => [x]
  | y :: l => if x.2.2 < y.2.2 ∨ (x.2.2 = y.2.2 ∧ y.1 < x.1) then y :: insLex x l else x :: y :: l

def sortLex (l : List (Nat × String × Nat)) : List (Nat × String × Nat) := l.foldr insLex []

/-- Modelled from the spec's words: the 20 most frequent distinct words,
ties broken by earliest first occurrence in the buffer. -/
def specTopWords (buf : List String) : List String :=
  ((sortLex (specItems buf).enum).take 20).map (fun e => e.2.1)

theorem mem_foldl_dedupStep (l : List String) (acc : List String) (x : String) :
    x ∈ l.foldl dedupStep acc ↔ x ∈ acc ∨ x ∈ l := by
  induction l generalizing acc with
  | nil => simp
  | cons a rest ih =>
    rw [List.foldl_cons, ih]
    unfold dedupStep
    by_cases ha : a ∈ acc
    · rw [if_pos ha]
      constructor
      · intro h
        rcases h with h | h
        · exact Or.inl h
        · exact Or.inr (List.mem_cons_of_mem a h)
      · intro h
        rcases h with h | h
        · exact Or.inl h
        · rcases List.mem_cons.mp h with h | h
          · exact Or.inl (h ▸ ha)
          · exact Or.inr h
    · rw [if_neg ha]
      simp only [List.mem_append, List.mem_singleton, List.mem_cons]
      tauto

theorem mem_dedupFirst (l : List String) (x : String) : x ∈ dedupFirst l ↔ x ∈ l := by
  unfold dedupFirst
  rw [mem_foldl_dedupStep]
  simp

theorem dedupFirst_append_singleton (p : List String) (w : String) :
    dedupFirst (p ++ [w]) = dedupStep (dedupFirst p) w := by
  unfold dedupFirst
  rw [List.foldl_append, List.foldl_cons, List.foldl_nil]

/-- The Counter step commutes with the spec's distinct-words-with-counts
view of the buffer. -/
theorem specItems_append (p : List String) (w : String) :
    specItems (p ++ [w]) = bumpWord (specItems p) w := by
  unfold specItems bumpWord
  rw [dedupFirst_append_singleton]
  unfold dedupStep
  by_cases hw : w ∈ p
  · have hmem : w ∈ dedupFirst p := (mem_dedupFirst p w).mpr hw
    rw [if_pos hmem]
    have hany : ((dedupFirst p).map (fun u => (u, p.count u))).any (fun e => e.1 = w) = true := by
      rw [List.any_eq_true]
      exact ⟨(w, p.count w), List.mem_map_of_mem _ hmem, by simp⟩
    rw [hany]
    simp only [if_true]
    rw [List.map_map]
    apply List.map_congr_left
    intro u hu
    by_cases huw : u = w
    · subst huw
      simp [List.count_append]
    · simp only [Function.comp_apply, huw, if_false]
      have : List.count u [w] = 0 := by
        simp [List.count_singleton, huw]
      rw [List.count_append, this, Nat.add_zero]
  · have hmem : w ∉ dedupFirst p := fun h => hw ((mem_dedupFirst p w).mp h)
    rw [if_neg hmem]
    have hany : ((dedupFirst p).map (fun u => (u, p.count u))).any (fun e => e.1 = w) = false := by
      rw [List.any_eq_false]
      intro e he
      rcases List.mem_map.mp he with ⟨u, hu, rfl⟩
      simp only [decide_eq_true_eq]
      intro h
      exact hmem (h ▸ hu)
    rw [hany]
    simp only [Bool.false_eq_true, if_false]
    rw [List.map_append]
    congr 1
    · apply List.map_congr_left
      intro u hu
      have huw : u ≠ w := fun h => hmem (h ▸ hu)
      have : List.count u [w] = 0 := by
        simp [List.count_singleton, huw]
      rw [List.count_append, this, Nat.add_zero]
    · have hcw : p.count w = 0 := List.count_eq_zero_of_not_mem hw
      have : List.count w [w] = 1 := by simp
      simp [List.count_append, hcw, this]

/-- The insertion-ordered Counter of the buffer computes exactly the
spec's distinct words with their frequencies. -/
theorem counterItems_eq_specItems (buf : List String) : counterItems buf = specItems buf := by
  induction buf using List.reverseRecOn with
  | nil => rfl
  | append_singleton p w ih =>
    unfold counterItems
    rw [List.foldl_append, List.foldl_cons, List.foldl_nil]
    show bumpWord (p.foldl bumpWord []) w = specItems (p ++ [w])
    have hp : p.foldl bumpWord [] = specItems p := ih
    rw [hp, ← specItems_append]

theorem map_snd_insLex (x : Nat × String × Nat) (acc : List (Nat × String × Nat))
    (h : ∀ y ∈ acc, x.1 < y.1) :
    (insLex x acc).map (fun e => e.2) = insByCount x.2 (acc.map (fun e => e.2)) := by
  induction acc with
  | nil => rfl
  | cons y l ih =>
    have hy : x.1 < y.1 := h y (List.mem_cons_self y l)
    have hcond : (x.2.2 < y.2.2 ∨ (x.2.2 = y.2.2 ∧ y.1 < x.1)) ↔ x.2.2 < y.2.2 := by
      constructor
      · intro hc
        rcases hc with hc | hc
        · exact hc
        · exact absurd hc.2 (Nat.lt_asymm hy)
      · exact Or.inl
    show (if x.2.2 < y.2.2 ∨ (x.2.2 = y.2.2 ∧ y.1 < x.1) then y :: insLex x l else x :: y :: l).map
        (fun e => e.2) = insByCount x.2 (y.2 :: l.map (fun e => e.2))
    by_cases hl : x.2.2 < y.2.2
    · rw [if_pos (hcond.mpr hl)]
      show y.2 :: (insLex x l).map (fun e => e.2)
          = insByCount x.2 (y.2 :: l.map (fun e => e.2))
      rw [ih (fun z hz => h z (List.mem_cons_of_mem y hz))]
      conv_rhs => rw [insByCount]
      rw [if_pos hl]
    · rw [if_neg (fun hc => hl (hcond.mp hc))]
      show x.2 :: y.2 :: l.map (fun e => e.2) = insByCount x.2 (y.2 :: l.map (fun e => e.2))
      conv_rhs => rw [insByCount]
      rw [if_neg hl]

theorem mem_insLex (x : Nat × String × Nat) (l : List (Nat × String × Nat))
    (y : Nat × String × Nat) (h : y ∈ insLex x l) : y = x ∨ y ∈ l := by
  induction l with
  | nil =>
    unfold insLex at h
    rcases List.mem_singleton.mp h with h
    exact Or.inl h
  | cons z l ih =>
    unfold insLex at h
    by_cases hc : x.2.2 < z.2.2 ∨ (x.2.2 = z.2.2 ∧ z.1 < x.1)
    · rw [if_pos hc] at h
      rcases List.mem_cons.mp h with h | h
      · exact Or.inr (h ▸ List.mem_cons_self z l)
      · rcases ih h with h | h
        · exact Or.inl h
        · exact Or.inr (List.mem_cons_of_mem z h)
    · rw [if_neg hc] at h
      rcases List.mem_cons.mp h with h | h
      · exact Or.inl h
      · exact Or.inr h

theorem mem_sortLex (l : List (Nat × String × Nat)) (y : Nat × String × Nat)
    (h : y ∈ sortLex l) : y ∈ l := by
  induction l with
  | nil => exact absurd h (List.not_mem_nil y)
  | cons a rest ih =>
    have h2 : y ∈ insLex a (sortLex rest) := h
    rcases mem_insLex a (sortLex rest) y h2 with h3 | h3
    · exact h3 ▸ List.mem_cons_self a rest
    · exact List.mem_cons_of_mem a (ih h3)

theorem mem_enumFrom_le {α : Type} (l : List α) (n : Nat) (y : Nat × α)
    (h : y ∈ List.enumFrom n l) : n ≤ y.1 := by
  induction l generalizing n with
  | nil => exact absurd h (List.not_mem_nil y)
  | cons a rest ih =>
    rcases List.mem_cons.mp h with h | h
    · rw [h]
    · exact Nat.le_of_lt (Nat.lt_of_lt_of_le (Nat.lt_succ_self n) (ih (n + 1) h))

theorem pairwise_enumFrom {α : Type} (l : List α) (n : Nat) :
    (List.enumFrom n l).Pairwise (fun a b => a.1 < b.1) := by
  induction l generalizing n with
  | nil => exact List.Pairwise.nil
  | cons a rest ih =>
    refine List.Pairwise.cons ?_ (ih (n + 1))
    intro y hy
    exact Nat.lt_of_lt_of_le (Nat.lt_succ_self n) (mem_enumFrom_le rest (n + 1) y hy)

/-- Stripping the first-occurrence ranks from the lex sort of the ranked
entries yields the stable descending count sort of the unranked entries:
the stable sort's tie order is exactly the earlier-first-occurrence
order. -/
theorem map_snd_sortLex (l : List (Nat × String × Nat))
    (h : l.Pairwise (fun a b => a.1 < b.1)) :
    (sortLex l).map (fun e => e.2) = sortByCount (l.map (fun e => e.2)) := by
  induction l with
  | nil => rfl
  | cons a rest ih =>
    rcases List.pairwise_cons.mp h with ⟨ha, hrest⟩
    show (insLex a (sortLex rest)).map (fun e => e.2)
        = sortByCount (a.2 :: rest.map (fun e => e.2))
    rw [map_snd_insLex a (sortLex rest) (fun y hy => ha y (mem_sortLex rest y hy))]
    rw [ih hrest]
    rfl

/-- C7: for every buffer state the query returns the 20 most frequent
distinct words, ties between equal-frequency words broken by earliest
first occurrence in buffer order. -/
theorem topics_top20_most_frequent_firstocc_ties (buf : List String) :
    mostCommonWords buf = specTopWords buf := by
  unfold mostCommonWords specTopWords
  rw [counterItems_eq_specItems]
  have hpw : ((specItems buf).enum).Pairwise (fun a b => a.1 < b.1) := by
    show (List.enumFrom 0 (specItems buf)).Pairwise (fun a b => a.1 < b.1)
    exact pairwise_enumFrom (specItems buf) 0
  have h := map_snd_sortLex ((specItems buf).enum) hpw
  rw [List.enum_map_snd] at h
  rw [← h]
  rw [← List.map_take]
  rw [List.map_map]
  rfl

/-- ASCII fragment of Python str.lower (the inputs exercised here are
ASCII). -/
def asciiLowerChar (c : Char) : Char :=
  if 'A' ≤ c ∧ c ≤ 'Z' then Char.ofNat (c.toNat + 32) else c

def asciiLower (s : String) : String := String.mk (s.toList.map asciiLowerChar)

/-- ASCII fragment of Python str.upper. -/
def asciiUpperChar (c : Char) : Char :=
  if 'a' ≤ c ∧ c ≤ 'z' then Char.ofNat (c.toNat - 32) else c

def asciiUpper (s : String) : String := String.mk (s.toList.map asciiUpperChar)

def isSpaceChar (c : Char) : Bool := c = ' ' ∨ c = '\t' ∨ c = '\n' ∨ c = '\r'

/-- ASCII fragment of Python str.strip: remove leading and trailing
whitespace. -/
def pyStrip (s : String) : String :=
  String.mk (((s.toList.dropWhile isSpaceChar).reverse.dropWhile isSpaceChar).reverse)

/-- State transition of the watched_brands set for one inbound
start_search command.  handle_start_search ignores an absent or empty
brand; run_search_flow then executes watched_brands.add(brand_name.lower()).
The Python set is modelled as a duplicate-free list; no code path ever
removes an element. -/
def watch_step (reg : List String) (req : Option String) : List String :=
  match req with
  | none => reg
  | some b =>
    if b = "" then reg
    else if asciiLower b ∈ reg then reg else reg ++ [asciiLower b]

theorem mem_watch_step (reg : List String) (req : Option String) (x : String)
    (h : x ∈ reg) : x ∈ watch_step reg req := by
  cases req with
  | none => exact h
  | some b =>
    show x ∈ (if b = "" then reg else if asciiLower b ∈ reg then reg else reg ++ [asciiLower b])
    by_cases hb : b = ""
    · rw [if_pos hb]
      exact h
    · rw [if_neg hb]
      by_cases hm : asciiLower b ∈ reg
      · rw [if_pos hm]
        exact h
      · rw [if_neg hm]
        exact List.mem_append_left _ h

theorem watch_step_chars (reg : List String) (req : Option String) (x : String)
    (h : x ∈ watch_step reg req) :
    x ∈ reg ∨ ∃ b, req = some b ∧ b ≠ "" ∧ x = asciiLower b := by
  cases req with
  | none => exact Or.inl h
  | some b =>
    have h2 : x ∈ (if b = "" then reg else if asciiLower b ∈ reg then reg
        else reg ++ [asciiLower b]) := h
    by_cases hb : b = ""
    · rw [if_pos hb] at h2
      exact Or.inl h2
    · rw [if_neg hb] at h2
      by_cases hm : asciiLower b ∈ reg
      · rw [if_pos hm] at h2
        exact Or.inl h2
      · rw [if_neg hm] at h2
        rcases List.mem_append.mp h2 with h3 | h3
        · exact Or.inl h3
        · exact Or.inr ⟨b, rfl, hb, List.mem_singleton.mp h3⟩

/-- C8 counterexample: starting a search for " Acme" stores " acme", which
is lowercased but not trimmed; the claimed normalization (lowercase and
trim) would store "acme". -/
theorem watch_registry_not_trimmed :
    watch_step [] (some " Acme") = [" acme"] ∧
    pyStrip (asciiLower " Acme") = "acme" ∧
    (" acme" : String) ≠ pyStrip (asciiLower " Acme") := by
  refine ⟨?_, ?_, ?_⟩ <;> decide

/-- C8 amended: every stored entity name is the lowercasing (without
trimming) of some non-empty requested brand, and the registry only grows:
no operation removes an entity within the process lifetime. -/
theorem watch_registry_lowercase_and_monotone (reqs : List (Option String)) (reg0 : List String) :
    (∀ x ∈ reg0, x ∈ reqs.foldl watch_step reg0) ∧
    (∀ x ∈ reqs.foldl watch_step reg0,
      x ∈ reg0 ∨ ∃ b, (some b) ∈ reqs ∧ b ≠ "" ∧ x = asciiLower b) := by
  induction reqs generalizing reg0 with
  | nil => exact ⟨fun x h => h, fun x h => Or.inl h⟩
  | cons r rest ih =>
    constructor
    · intro x hx
      rw [List.foldl_cons]
      exact (ih (watch_step reg0 r)).1 x (mem_watch_step reg0 r x hx)
    · intro x hx
      rw [List.foldl_cons] at hx
      rcases (ih (watch_step reg0 r)).2 x hx with h | ⟨b, hb, hbne, hbx⟩
      · rcases watch_step_chars reg0 r x h with h | ⟨b, hb, hbne, hbx⟩
        · exact Or.inl h
        · exact Or.inr ⟨b, hb ▸ List.mem_cons_self _ _, hbne, hbx⟩
      · exact Or.inr ⟨b, List.mem_cons_of_mem r hb, hbne, hbx⟩

/-- Witness for watch_registry_lowercase_and_monotone at a concrete run. -/
theorem watch_registry_lowercase_witness :
    ("acme" : String) ∈ [] ∨ ∃ b, (some b) ∈ [some "Acme"] ∧ b ≠ "" ∧ ("acme" : String) = asciiLower b :=
  (watch_registry_lowercase_and_monotone [some "Acme"] []).2 "acme" (by decide)

def isWordChar (c : Char) : Bool := c.isAlphanum || c = '_'

/-- Maximal word-character runs of a character list (cur holds the
current run, reversed).  This is the token stream of
re.sub(non-word-runs, one space, text).split(). -/
def splitWordsGo (cur : List Char) : List Char → List String
  | [] => if cur.isEmpty then [] else [String.mk cur.reverse]
  | c :: rest =>
    if isWordChar c then splitWordsGo (c :: cur) rest
    else if cur.isEmpty then splitWordsGo [] rest
    else String.mk cur.reverse :: splitWordsGo [] rest

/-- update_and_get_global_topics from src/backend/main.py: join the texts,
normalize and tokenize, drop stopwords, the entity name and short tokens,
push into the rolling corpus and query the top 20.  The nltk stopword set
is passed as a parameter; lowercasing before tokenizing equals the
source's tokenize-then-lower because case does not change word-character
status.  Returns (topics, new corpus state). -/
def update_and_get_global_topics (stop_words : List String) (corpus : List String)
    (new_mentions : List Mention) (brand_name : String) : List String × List String :=
  let all_text := String.intercalate " " (new_mentions.map (fun m => m.text))
  let words := (splitWordsGo [] (asciiLower all_text).toList).filter
    (fun w => decide (w ∉ stop_words ∧ w ≠ asciiLower brand_name ∧ 3 < w.length))
  let corpus2 := corpusExtend corpus words
  (mostCommonWords corpus2, corpus2)

inductive Scope where
  | toSession (sid : String)
  | broadcast
deriving DecidableEq, Repr

/-- The six socket events of one orchestrator run, with their payloads.
summary_update appears twice because its two payload shapes
({sentiment: ...} vs {topics: ...}) are distinct on the wire. -/
inductive Event where
  | statusUpdate (message : String)
  | mentionBatch (mentions : List Mention)
  | sentimentSummary (s : Summary)
  | activityUpdate (timestamps : List String)
  | topicsSummary (topics : List String)
  | searchComplete
deriving DecidableEq, Repr

structure Emitted where
  event : Event
  scope : Scope
deriving DecidableEq, Repr

/-- Outcome of awaiting asyncio.to_thread(task_func): the connector's
mention list, or an exception (caught by the loop's except clause). -/
inductive FetchOutcome where
  | ok (mentions : List Mention)
  | threw
deriving DecidableEq, Repr

/-- The status_update emit at the top of the loop body: note the source
calls sio.emit without to=sid here, so the scope is broadcast. -/
def statusOf (name : String) : Emitted :=
  ⟨.statusUpdate ("Searching " ++ name ++ "..."), .broadcast⟩

/-- The streaming loop of run_search_flow: for each (name, task) in order,
emit status_update, await the fetch, and on a non-empty result emit
mention_batch and the recomputed cumulative sentiment summary_update,
both to the requesting session.  acc is current_search_mentions. -/
def streamEvents (sid : String) (acc : List Mention) :
    List (String × FetchOutcome) → List Emitted × List Mention
  | [] => ([], acc)
  | (name, r) :: rest =>
    match r with
    | .threw =>
      let p := streamEvents sid acc rest
      (statusOf name :: p.1, p.2)
    | .ok ms =>
      if ms.isEmpty then
        let p := streamEvents sid acc rest
        (statusOf name :: p.1, p.2)
      else
        let p := streamEvents sid (acc ++ ms) rest
        (statusOf name :: ⟨.mentionBatch ms, .toSession sid⟩ ::
          ⟨.sentimentSummary (analyze_mention_summary (acc ++ ms)), .toSession sid⟩ :: p.1, p.2)

/-- The trailing-24h activity computation of run_search_flow, with
dateutil's parser abstracted as parseTs (returning an absolute instant in
seconds, None on failure) and "now" passed in. -/
def activityTimestamps (parseTs : String → Option Int) (now : Int) (ms : List Mention) :
    List String :=
  ms.filterMap (fun m =>
    match parseTs m.timestamp with
    | none => none
    | some t => if now - 86400 < t then some m.timestamp else none)

/-- run_search_flow from src/backend/main.py as a function from the fetch
outcomes of the configured tasks (in the source the fixed list News,
Hacker News, Reddit, Dev.to) and the global corpus state to the emitted
event trace and the new corpus state. -/
def run_search_flow (stop_words : List String) (parseTs : String → Option Int) (now : Int)
    (sid : String) (brand_name : String) (tasks : List (String × FetchOutcome))
    (corpus : List String) : List Emitted × List String :=
  let p := streamEvents sid [] tasks
  let acts := activityTimestamps parseTs now p.2
  let tc := update_and_get_global_topics stop_words corpus p.2 brand_name
  (p.1 ++ [⟨.activityUpdate acts, .toSession sid⟩, ⟨.topicsSummary tc.1, .toSession sid⟩,
    ⟨.searchComplete, .toSession sid⟩], tc.2)

inductive EvKind where
  | batchKind
  | activityKind
  | topicsKind
  | completeKind
  | otherKind
deriving DecidableEq, Repr

def kindOf : Event → EvKind
  | .mentionBatch _ => .batchKind
  | .activityUpdate _ => .activityKind
  | .topicsSummary _ => .topicsKind
  | .searchComplete => .completeKind
  | .statusUpdate _ => .otherKind
  | .sentimentSummary _ => .otherKind

/-- The trace restricted to the event kinds the protocol claim orders:
mention_batch, activity_update, the topics summary_update and
search_complete. -/
def keyEvents (t : List Emitted) : List EvKind :=
  (t.map (fun e => kindOf e.event)).filter (fun k => decide (k ≠ .otherKind))

def isNonEmptyOk : FetchOutcome → Bool
  | .ok ms => !ms.isEmpty
  | .threw => false

theorem keyEvents_append (a b : List Emitted) :
    keyEvents (a ++ b) = keyEvents a ++ keyEvents b := by
  unfold keyEvents
  rw [List.map_append, List.filter_append]

theorem keyEvents_streamEvents (sid : String) (tasks : List (String × FetchOutcome))
    (acc : List Mention) :
    keyEvents (streamEvents sid acc tasks).1
      = List.replicate ((tasks.filter (fun t => isNonEmptyOk t.2)).length) EvKind.batchKind := by
  induction tasks generalizing acc with
  | nil => rfl
  | cons t rest ih =>
    obtain ⟨name, r⟩ := t
    cases r with
    | threw =>
      show keyEvents (statusOf name :: (streamEvents sid acc rest).1) = _
      have : keyEvents (statusOf name :: (streamEvents sid acc rest).1)
          = keyEvents (streamEvents sid acc rest).1 := rfl
      rw [this, ih acc]
      rfl
    | ok ms =>
      by_cases hms : ms.isEmpty
      · show keyEvents ((if ms.isEmpty then _ else _) : List Emitted × List Mention).1 = _
        rw [if_pos hms]
        have : keyEvents (statusOf name :: (streamEvents sid acc rest).1)
            = keyEvents (streamEvents sid acc rest).1 := rfl
        rw [this, ih acc]
        have hfilter : ((name, FetchOutcome.ok ms) :: rest).filter (fun t => isNonEmptyOk t.2)
            = rest.filter (fun t => isNonEmptyOk t.2) := by
          rw [List.filter_cons]
          simp [isNonEmptyOk, hms]
        rw [hfilter]
      · show keyEvents ((if ms.isEmpty then _ else _) : List Emitted × List Mention).1 = _
        rw [if_neg hms]
        have : keyEvents (statusOf name :: ⟨.mentionBatch ms, .toSession sid⟩ ::
            ⟨.sentimentSummary (analyze_mention_summary (acc ++ ms)), .toSession sid⟩ ::
            (streamEvents sid (acc ++ ms) rest).1)
            = EvKind.batchKind :: keyEvents (streamEvents sid (acc ++ ms) rest).1 := rfl
        rw [this, ih (acc ++ ms)]
        have hfilter : ((name, FetchOutcome.ok ms) :: rest).filter (fun t => isNonEmptyOk t.2)
            = (name, FetchOutcome.ok ms) :: rest.filter (fun t => isNonEmptyOk t.2) := by
          rw [List.filter_cons]
          simp [isNonEmptyOk, hms]
        rw [hfilter, List.length_cons, List.replicate_succ]

/-- C1: for every run, the trace restricted to the ordered protocol events
is exactly k mention_batch events (k the number of tasks returning a
non-empty list; empty and throwing tasks contribute none) followed by one
activity_update, one topics summary_update and one search_complete, in
that order. -/
theorem orchestrator_event_protocol (stop_words : List String)
    (parseTs : String → Option Int) (now : Int) (sid brand_name : String)
    (tasks : List (String × FetchOutcome)) (corpus : List String) :
    keyEvents (run_search_flow stop_words parseTs now sid brand_name tasks corpus).1
      = List.replicate ((tasks.filter (fun t => isNonEmptyOk t.2)).length) EvKind.batchKind
        ++ [EvKind.activityKind, EvKind.topicsKind, EvKind.completeKind] := by
  unfold run_search_flow
  rw [keyEvents_append, keyEvents_streamEvents]
  rfl

/-- Timing model of the streaming loop.  The loop body awaits
asyncio.to_thread(task_func) before the next iteration starts, so with
durs i the running time of fetch i, fetch i can only start once fetches
0..i-1 have finished: its start instant is the sum of their durations. -/
def startTime (durs : List Nat) (i : Nat) : Nat := (durs.take i).sum

def finishTime (durs : List Nat) (i : Nat) : Nat := startTime durs i + durs.getD i 0

/-- Modelled from the spec's words, for comparison with the timing model:
a concurrent fan-out in which no fetch waits for another fetch to finish
before starting would start every fetch at the dispatch instant 0. -/
def concurrentDispatch (durs : List Nat) : Bool :=
  (List.range durs.length).all (fun i => decide (startTime durs i = 0))

/-- The mention_batch payloads of a trace, in emission order. -/
def batchPayloads (t : List Emitted) : List (List Mention) :=
  t.filterMap (fun e =>
    match e.event with
    | .mentionBatch ms => some ms
    | _ => none)

def okNonemptyPayload : FetchOutcome → Option (List Mention)
  | .ok ms => if ms.isEmpty then none else some ms
  | .threw => none

theorem batchPayloads_append (a b : List Emitted) :
    batchPayloads (a ++ b) = batchPayloads a ++ batchPayloads b := by
  unfold batchPayloads
  rw [List.filterMap_append]

theorem batchPayloads_streamEvents (sid : String) (tasks : List (String × FetchOutcome))
    (acc : List Mention) :
    batchPayloads (streamEvents sid acc tasks).1
      = tasks.filterMap (fun t => okNonemptyPayload t.2) := by
  induction tasks generalizing acc with
  | nil => rfl
  | cons t rest ih =>
    obtain ⟨name, r⟩ := t
    cases r with
    | threw =>
      show batchPayloads (statusOf name :: (streamEvents sid acc rest).1) = _
      have : batchPayloads (statusOf name :: (streamEvents sid acc rest).1)
          = batchPayloads (streamEvents sid acc rest).1 := rfl
      rw [this, ih acc]
      rfl
    | ok ms =>
      by_cases hms : ms.isEmpty
      · show batchPayloads ((if ms.isEmpty then _ else _) : List Emitted × List Mention).1 = _
        rw [if_pos hms]
        have : batchPayloads (statusOf name :: (streamEvents sid acc rest).1)
            = batchPayloads (streamEvents sid acc rest).1 := rfl
        rw [this, ih acc]
        rw [List.filterMap_cons]
        have : okNonemptyPayload (name, FetchOutcome.ok ms).2 = none := by
          show (if ms.isEmpty then none else some ms) = none
          rw [if_pos hms]
        rw [this]
      · show batchPayloads ((if ms.isEmpty then _ else _) : List Emitted × List Mention).1 = _
        rw [if_neg hms]
        have : batchPayloads (statusOf name :: ⟨.mentionBatch ms, .toSession sid⟩ ::
            ⟨.sentimentSummary (analyze_mention_summary (acc ++ ms)), .toSession sid⟩ ::
            (streamEvents sid (acc ++ ms) rest).1)
            = ms :: batchPayloads (streamEvents sid (acc ++ ms) rest).1 := rfl
        rw [this, ih (acc ++ ms)]
        rw [List.filterMap_cons]
        have : okNonemptyPayload (name, FetchOutcome.ok ms).2 = some ms := by
          show (if ms.isEmpty then none else some ms) = some ms
          rw [if_neg hms]
        rw [this]

/-- C2 counterexample: with fetch durations 5, 1, 1, 1 the loop's second
fetch starts exactly when the first finishes (instant 5), not at the
dispatch instant 0, so the fetches are not run concurrently: each fetch
waits for the previous one to finish before starting. -/
theorem fetches_not_concurrent_cx :
    concurrentDispatch [5, 1, 1, 1] = false ∧
    startTime [5, 1, 1, 1] 1 = finishTime [5, 1, 1, 1] 0 ∧
    startTime [5, 1, 1, 1] 1 = 5 ∧ startTime [5, 1, 1, 1] 0 = 0 := by
  refine ⟨?_, ?_, ?_, ?_⟩ <;> decide

/-- C2 amended: the orchestrator runs the fetch tasks sequentially, each
fetch starting exactly when the previous one finishes, and mention_batch
events are emitted in fixed task-list (source) order: the batch payload
sequence is the non-empty ok results in task order, independent of any
durations. -/
theorem fetches_sequential_fixed_order :
    (∀ (durs : List Nat) (i : Nat), startTime durs (i + 1) = finishTime durs i) ∧
    (∀ (stop_words : List String) (parseTs : String → Option Int) (now : Int)
      (sid brand_name : String) (tasks : List (String × FetchOutcome)) (corpus : List String),
      batchPayloads (run_search_flow stop_words parseTs now sid brand_name tasks corpus).1
        = tasks.filterMap (fun t => okNonemptyPayload t.2)) := by
  constructor
  · intro durs i
    induction durs generalizing i with
    | nil =>
      unfold startTime finishTime startTime
      simp
    | cons d rest ih =>
      cases i with
      | zero =>
        unfold startTime finishTime startTime
        simp
      | succ j =>
        unfold startTime finishTime startTime
        rw [List.take_succ_cons, List.take_succ_cons, List.sum_cons, List.sum_cons]
        have h := ih j
        unfold startTime finishTime startTime at h
        rw [List.getD_cons_succ]
        omega
  · intro stop_words parseTs now sid brand_name tasks corpus
    unfold run_search_flow
    rw [batchPayloads_append, batchPayloads_streamEvents]
    have : batchPayloads [⟨.activityUpdate (activityTimestamps parseTs now
        (streamEvents sid [] tasks).2), .toSession sid⟩,
        ⟨.topicsSummary (update_and_get_global_topics stop_words corpus
          (streamEvents sid [] tasks).2 brand_name).1, .toSession sid⟩,
        ⟨.searchComplete, .toSession sid⟩] = [] := rfl
    rw [this, List.append_nil]

def isStatus : Event → Bool
  | .statusUpdate _ => true
  | _ => false

theorem streamEvents_scopes (sid : String) (tasks : List (String × FetchOutcome))
    (acc : List Mention) (e : Emitted) (he : e ∈ (streamEvents sid acc tasks).1) :
    (isStatus e.event = true → e.scope = Scope.broadcast) ∧
    (isStatus e.event = false → e.scope = Scope.toSession sid) := by
  induction tasks generalizing acc with
  | nil => exact absurd he (List.not_mem_nil e)
  | cons t rest ih =>
    obtain ⟨name, r⟩ := t
    cases r with
    | threw =>
      have he2 : e ∈ statusOf name :: (streamEvents sid acc rest).1 := he
      rcases List.mem_cons.mp he2 with h | h
      · subst h
        exact ⟨fun _ => rfl, fun hf => absurd hf (by simp [statusOf, isStatus])⟩
      · exact ih acc h
    | ok ms =>
      by_cases hms : ms.isEmpty
      · have he2 : e ∈ (if ms.isEmpty then
            (statusOf name :: (streamEvents sid acc rest).1, (streamEvents sid acc rest).2)
          else ((statusOf name :: ⟨.mentionBatch ms, .toSession sid⟩ ::
            ⟨.sentimentSummary (analyze_mention_summary (acc ++ ms)), .toSession sid⟩ ::
            (streamEvents sid (acc ++ ms) rest).1), (streamEvents sid (acc ++ ms) rest).2)).1 := he
        rw [if_pos hms] at he2
        rcases List.mem_cons.mp he2 with h | h
        · subst h
          exact ⟨fun _ => rfl, fun hf => absurd hf (by simp [statusOf, isStatus])⟩
        · exact ih acc h
      · have he2 : e ∈ (if ms.isEmpty then
            (statusOf name :: (streamEvents sid acc rest).1, (streamEvents sid acc rest).2)
          else ((statusOf name :: ⟨.mentionBatch ms, .toSession sid⟩ ::
            ⟨.sentimentSummary (analyze_mention_summary (acc ++ ms)), .toSession sid⟩ ::
            (streamEvents sid (acc ++ ms) rest).1), (streamEvents sid (acc ++ ms) rest).2)).1 := he
        rw [if_neg hms] at he2
        rcases List.mem_cons.mp he2 with h | h
        · subst h
          exact ⟨fun _ => rfl, fun hf => absurd hf (by simp [statusOf, isStatus])⟩
        · rcases List.mem_cons.mp h with h2 | h2
          · subst h2
            exact ⟨fun ht => absurd ht (by simp [isStatus]), fun _ => rfl⟩
          · rcases List.mem_cons.mp h2 with h3 | h3
            · subst h3
              exact ⟨fun ht => absurd ht (by simp [isStatus]), fun _ => rfl⟩
            · exact ih (acc ++ ms) h3

/-- C9 counterexample: in a concrete run for session s1 the
status_update event is emitted without a session scope, i.e. broadcast to
all connected sessions, not delivered only to the requesting session. -/
theorem status_update_broadcast_cx :
    (⟨Event.statusUpdate "Searching News...", Scope.broadcast⟩ : Emitted)
      ∈ (run_search_flow [] (fun _ => none) 0 "s1" "acme"
          [("News", FetchOutcome.ok [])] []).1 ∧
    Scope.broadcast ≠ Scope.toSession "s1" := by
  refine ⟨?_, by decide⟩
  show _ ∈ (run_search_flow [] (fun _ => none) 0 "s1" "acme"
      [("News", FetchOutcome.ok [])] []).1
  decide

/-- C9 amended: every status_update of a run is broadcast to all
sessions (the source emits it without to=sid), while every other event of
the run is delivered to the requesting session only. -/
theorem status_update_scope (stop_words : List String) (parseTs : String → Option Int)
    (now : Int) (sid brand_name : String) (tasks : List (String × FetchOutcome))
    (corpus : List String) (e : Emitted)
    (he : e ∈ (run_search_flow stop_words parseTs now sid brand_name tasks corpus).1) :
    (isStatus e.event = true → e.scope = Scope.broadcast) ∧
    (isStatus e.event = false → e.scope = Scope.toSession sid) := by
  unfold run_search_flow at he
  rcases List.mem_append.mp he with h | h
  · exact streamEvents_scopes sid tasks [] e h
  · rcases List.mem_cons.mp h with h2 | h2
    · subst h2
      exact ⟨fun ht => absurd ht (by simp [isStatus]), fun _ => rfl⟩
    · rcases List.mem_cons.mp h2 with h3 | h3
      · subst h3
        exact ⟨fun ht => absurd ht (by simp [isStatus]), fun _ => rfl⟩
      · rcases List.mem_cons.mp h3 with h4 | h4
        · subst h4
          exact ⟨fun ht => absurd ht (by simp [isStatus]), fun _ => rfl⟩
        · exact absurd h4 (List.not_mem_nil e)

/-- Witness for status_update_scope at a concrete run and event. -/
theorem status_update_scope_witness :
    (isStatus (⟨Event.statusUpdate "Searching Reddit...", Scope.broadcast⟩ : Emitted).event = true →
      (⟨Event.statusUpdate "Searching Reddit...", Scope.broadcast⟩ : Emitted).scope
        = Scope.broadcast) ∧
    (isStatus (⟨Event.statusUpdate "Searching Reddit...", Scope.broadcast⟩ : Emitted).event = false →
      (⟨Event.statusUpdate "Searching Reddit...", Scope.broadcast⟩ : Emitted).scope
        = Scope.toSession "s2") :=
  status_update_scope [] (fun _ => none) 0 "s2" "brand" [("Reddit", FetchOutcome.threw)] []
    ⟨Event.statusUpdate "Searching Reddit...", Scope.broadcast⟩ (by decide)

/-- Modelled from the spec: the mention shape seen by the
LiveUpdatePoller for one (source, entity) pair, with its absolute
instant.  The poller itself is described in the spec (section 4.5) but
absent from src/, so it is modelled from the spec's words. -/
structure PollerMention where
  text : String
  ts : Nat
deriving DecidableEq, Repr

/-- Modelled from the spec: the missing watermark-aware connector variant
fetch_new_since(entity, watermark_instant), which returns only the items
of the source strictly newer than the watermark. -/
def fetch_new_since (world : List PollerMention) (wm : Nat) : List PollerMention :=
  world.filter (fun m => decide (wm < m.ts))

def maxTs (ms : List PollerMention) : Nat := ms.foldl (fun a m => max a m.ts) 0

/-- Modelled from the spec: one successful poll cycle of the missing
LiveUpdatePoller for one registered (source, entity) pair: fetch only-new
items; if any were returned, deliver them and advance the stored
watermark to the newest delivered timestamp (an explicit maximum, per the
spec's design note), else leave the watermark unchanged. -/
def pollCycle (world : List PollerMention) (wm : Nat) : List PollerMention × Nat :=
  let nw := fetch_new_since world wm
  if nw.isEmpty then ([], wm) else (nw, maxTs nw)

theorem le_foldl_max (ms : List PollerMention) (a : Nat) :
    a ≤ ms.foldl (fun b m => max b m.ts) a := by
  induction ms generalizing a with
  | nil => exact Nat.le_refl a
  | cons m rest ih =>
    rw [List.foldl_cons]
    exact Nat.le_trans (Nat.le_max_left a m.ts) (ih (max a m.ts))

theorem mem_le_foldl_max (ms : List PollerMention) (m : PollerMention) (a : Nat) (h : m ∈ ms) :
    m.ts ≤ ms.foldl (fun b x => max b x.ts) a := by
  induction ms generalizing a with
  | nil => exact absurd h (List.not_mem_nil m)
  | cons x rest ih =>
    rw [List.foldl_cons]
    rcases List.mem_cons.mp h with h2 | h2
    · subst h2
      exact Nat.le_trans (Nat.le_max_right a m.ts) (le_foldl_max rest (max a m.ts))
    · exact ih (max a x.ts) h2

theorem mem_le_maxTs (ms : List PollerMention) (m : PollerMention) (h : m ∈ ms) :
    m.ts ≤ maxTs ms := mem_le_foldl_max ms m 0 h

theorem mem_fetch_new_since (world : List PollerMention) (wm : Nat) (m : PollerMention)
    (h : m ∈ fetch_new_since world wm) : wm < m.ts := by
  have h2 := List.mem_filter.mp h
  exact of_decide_eq_true h2.2

theorem pollCycle_fst_subset (world : List PollerMention) (wm : Nat) (m : PollerMention)
    (h : m ∈ (pollCycle world wm).1) : m ∈ fetch_new_since world wm := by
  by_cases he : (fetch_new_since world wm).isEmpty
  · have h2 : m ∈ (([], wm) : List PollerMention × Nat).1 := by
      unfold pollCycle at h
      rw [if_pos he] at h
      exact h
    exact absurd h2 (List.not_mem_nil m)
  · unfold pollCycle at h
    rw [if_neg he] at h
    exact h

theorem pollCycle_watermark_ge (world : List PollerMention) (wm : Nat) :
    wm ≤ (pollCycle world wm).2 := by
  by_cases he : (fetch_new_since world wm).isEmpty
  · unfold pollCycle
    rw [if_pos he]
  · unfold pollCycle
    rw [if_neg he]
    show wm ≤ maxTs (fetch_new_since world wm)
    obtain ⟨m, hm⟩ := List.exists_mem_of_ne_nil (fetch_new_since world wm)
      (fun hnil => he (by rw [hnil]; rfl))
    exact Nat.le_trans (Nat.le_of_lt (mem_fetch_new_since world wm m hm))
      (mem_le_maxTs _ m hm)

theorem pollCycle_fst_le_watermark (world : List PollerMention) (wm : Nat)
    (m : PollerMention) (h : m ∈ (pollCycle world wm).1) : m.ts ≤ (pollCycle world wm).2 := by
  have hsub := pollCycle_fst_subset world wm m h
  by_cases he : (fetch_new_since world wm).isEmpty
  · unfold pollCycle at h
    rw [if_pos he] at h
    exact absurd h (List.not_mem_nil m)
  · unfold pollCycle
    rw [if_neg he]
    exact mem_le_maxTs _ m hsub

/-- C3 (spec-modelled): across two consecutive successful poll cycles for
the same registered (source, entity) pair, the watermark never decreases,
each cycle fetches only items strictly newer than the stored watermark,
and no mention delivered in the first cycle is delivered again in the
second. -/
theorem poller_watermark_monotone_no_redelivery (world1 world2 : List PollerMention)
    (wm0 : Nat) :
    wm0 ≤ (pollCycle world1 wm0).2 ∧
    (pollCycle world1 wm0).2 ≤ (pollCycle world2 (pollCycle world1 wm0).2).2 ∧
    (∀ m ∈ fetch_new_since world1 wm0, wm0 < m.ts) ∧
    (∀ m ∈ (pollCycle world1 wm0).1, m ∉ (pollCycle world2 (pollCycle world1 wm0).2).1) := by
  refine ⟨pollCycle_watermark_ge world1 wm0,
    pollCycle_watermark_ge world2 (pollCycle world1 wm0).2,
    fun m hm => mem_fetch_new_since world1 wm0 m hm,
    fun m hm hm2 => ?_⟩
  have h1 : m.ts ≤ (pollCycle world1 wm0).2 := pollCycle_fst_le_watermark world1 wm0 m hm
  have h2 : (pollCycle world1 wm0).2 < m.ts :=
    mem_fetch_new_since world2 (pollCycle world1 wm0).2 m
      (pollCycle_fst_subset world2 (pollCycle world1 wm0).2 m hm2)
  exact Nat.lt_irrefl m.ts (Nat.lt_of_le_of_lt h1 h2)

/-- Witness for poller_watermark_monotone_no_redelivery at a concrete
world: the item with timestamp 5 delivered in cycle 1 is not delivered
again in cycle 2 over the same source contents. -/
theorem poller_watermark_witness :
    (⟨"a", 5⟩ : PollerMention)
      ∉ (pollCycle [⟨"a", 5⟩, ⟨"b", 3⟩] (pollCycle [⟨"a", 5⟩, ⟨"b", 3⟩] 0).2).1 :=
  (poller_watermark_monotone_no_redelivery [⟨"a", 5⟩, ⟨"b", 3⟩] [⟨"a", 5⟩, ⟨"b", 3⟩] 0).2.2.2
    ⟨"a", 5⟩ (by decide)

/-- A decoded Reddit search result as consumed by fetch_reddit_mentions. -/
structure RedditPost where
  title : String
  selftext : String
  subreddit : String
  permalink : String
  created_utc : Nat
deriving DecidableEq, Repr

def strTakeChars (s : String) (n : Nat) : String := String.mk (s.toList.take n)

/-- fetch_reddit_mentions from src/backend/main.py over the decoded post
list, with the sentiment model passed as classify.  The second component
is the classifier invocation log, one entry per sentiment_pipeline call:
the source calls the classifier inside the loop, once per kept post.
The datetime-to-ISO conversion is abstracted as the decimal print of
created_utc; a request-level failure returns ([], []) before the loop
runs (the except branch), so it makes no classifier calls. -/
def fetch_reddit_mentions (classify : String → String) :
    List RedditPost → List Mention × List String
  | [] => ([], [])
  | p :: rest =>
    if p.title = "" then fetch_reddit_mentions classify rest
    else
      let text := p.title ++ ". " ++ strTakeChars p.selftext 512
      let m : Mention := ⟨"Reddit", "r/" ++ p.subreddit, p.title, asciiUpper (classify text),
        "https://www.reddit.com" ++ p.permalink, toString p.created_utc⟩
      let q := fetch_reddit_mentions classify rest
      (m :: q.1, text :: q.2)

/-- A decoded news article as consumed by fetch_news_api. -/
structure Article where
  title : String
  description : String
  sourceName : String
  url : String
  publishedAt : String
deriving DecidableEq, Repr

/-- Outcome of one HTTP request plus JSON decode: the article list, or a
request-level failure caught by the enclosing try. -/
inductive ApiResult where
  | ok (articles : List Article)
  | failed
deriving DecidableEq, Repr

/-- The primary NewsAPI loop of fetch_news_api: skip empty and
'[Removed]' titles, classify title-dot-description once per kept
article.  Second component is the classifier invocation log. -/
def newsPrimaryLoop (classify : String → String) : List Article → List Mention × List String
  | [] => ([], [])
  | a :: rest =>
    if a.title = "" ∨ a.title = "[Removed]" then newsPrimaryLoop classify rest
    else
      let text := a.title ++ ". " ++ a.description
      let q := newsPrimaryLoop classify rest
      (⟨"News", a.sourceName, a.title, asciiUpper (classify text), a.url, a.publishedAt⟩ :: q.1,
        text :: q.2)

/-- The GNews failover loop of fetch_news_api: skip empty titles only. -/
def gnewsLoop (classify : String → String) : List Article → List Mention × List String
  | [] => ([], [])
  | a :: rest =>
    if a.title = "" then gnewsLoop classify rest
    else
      let text := a.title ++ ". " ++ a.description
      let q := gnewsLoop classify rest
      (⟨"News", a.sourceName, a.title, asciiUpper (classify text), a.url, a.publishedAt⟩ :: q.1,
        text :: q.2)

/-- fetch_news_api from src/backend/main.py: try the primary provider;
if it throws or yields zero mentions, and a GNews key is configured, run
the failover loop, appending to the same mention list (which is empty at
that point).  Second component is the combined classifier invocation
log. -/
def fetch_news_api (classify : String → String) (primary : ApiResult) (gnews_key : Bool)
    (gnewsR : ApiResult) : List Mention × List String :=
  let p := match primary with
    | .ok arts => newsPrimaryLoop classify arts
    | .failed => ([], [])
  if ¬ p.1.isEmpty then p
  else if gnews_key then
    match gnewsR with
    | .ok arts =>
      let g := gnewsLoop classify arts
      (p.1 ++ g.1, p.2 ++ g.2)
    | .failed => p
  else p

theorem fetch_reddit_lengths (classify : String → String) (posts : List RedditPost) :
    (fetch_reddit_mentions classify posts).2.length
      = (posts.filter (fun p => decide (p.title ≠ ""))).length ∧
    (fetch_reddit_mentions classify posts).1.length
      = (posts.filter (fun p => decide (p.title ≠ ""))).length := by
  induction posts with
  | nil => exact ⟨rfl, rfl⟩
  | cons p rest ih =>
    by_cases hp : p.title = ""
    · have hred : fetch_reddit_mentions classify (p :: rest)
          = fetch_reddit_mentions classify rest := by
        show (if p.title = "" then fetch_reddit_mentions classify rest else _)
          = fetch_reddit_mentions classify rest
        rw [if_pos hp]
      have hfil : (p :: rest).filter (fun p => decide (p.title ≠ ""))
          = rest.filter (fun p => decide (p.title ≠ "")) := by
        rw [List.filter_cons]
        simp [hp]
      rw [hred, hfil]
      exact ih
    · have hred : fetch_reddit_mentions classify (p :: rest)
          = (⟨"Reddit", "r/" ++ p.subreddit, p.title,
              asciiUpper (classify (p.title ++ ". " ++ strTakeChars p.selftext 512)),
              "https://www.reddit.com" ++ p.permalink, toString p.created_utc⟩
              :: (fetch_reddit_mentions classify rest).1,
            (p.title ++ ". " ++ strTakeChars p.selftext 512)
              :: (fetch_reddit_mentions classify rest).2) := by
        show (if p.title = "" then fetch_reddit_mentions classify rest else _) = _
        rw [if_neg hp]
      have hfil : (p :: rest).filter (fun p => decide (p.title ≠ ""))
          = p :: rest.filter (fun p => decide (p.title ≠ "")) := by
        rw [List.filter_cons]
        simp [hp]
      rw [hred, hfil]
      exact ⟨by rw [List.length_cons, List.length_cons, ih.1],
        by rw [List.length_cons, List.length_cons, ih.2]⟩

theorem newsPrimaryLoop_lengths (classify : String → String) (arts : List Article) :
    (newsPrimaryLoop classify arts).2.length
      = (arts.filter (fun a => decide (¬ (a.title = "" ∨ a.title = "[Removed]")))).length ∧
    (newsPrimaryLoop classify arts).1.length
      = (arts.filter (fun a => decide (¬ (a.title = "" ∨ a.title = "[Removed]")))).length := by
  induction arts with
  | nil => exact ⟨rfl, rfl⟩
  | cons a rest ih =>
    by_cases ha : a.title = "" ∨ a.title = "[Removed]"
    · have hred : newsPrimaryLoop classify (a :: rest) = newsPrimaryLoop classify rest := by
        show (if a.title = "" ∨ a.title = "[Removed]" then newsPrimaryLoop classify rest else _)
          = newsPrimaryLoop classify rest
        rw [if_pos ha]
      have hfil : (a :: rest).filter (fun a => decide (¬ (a.title = "" ∨ a.title = "[Removed]")))
          = rest.filter (fun a => decide (¬ (a.title = "" ∨ a.title = "[Removed]"))) := by
        rw [List.filter_cons]
        simp [ha]
      rw [hred, hfil]
      exact ih
    · have hred : newsPrimaryLoop classify (a :: rest)
          = (⟨"News", a.sourceName, a.title,
              asciiUpper (classify (a.title ++ ". " ++ a.description)), a.url, a.publishedAt⟩
              :: (newsPrimaryLoop classify rest).1,
            (a.title ++ ". " ++ a.description) :: (newsPrimaryLoop classify rest).2) := by
        show (if a.title = "" ∨ a.title = "[Removed]" then newsPrimaryLoop classify rest else _) = _
        rw [if_neg ha]
      have hfil : (a :: rest).filter (fun a => decide (¬ (a.title = "" ∨ a.title = "[Removed]")))
          = a :: rest.filter (fun a => decide (¬ (a.title = "" ∨ a.title = "[Removed]"))) := by
        rw [List.filter_cons]
        simp [ha]
      rw [hred, hfil]
      exact ⟨by rw [List.length_cons, List.length_cons, ih.1],
        by rw [List.length_cons, List.length_cons, ih.2]⟩

theorem gnewsLoop_lengths (classify : String → String) (arts : List Article) :
    (gnewsLoop classify arts).2.length
      = (arts.filter (fun a => decide (a.title ≠ ""))).length := by
  induction arts with
  | nil => rfl
  | cons a rest ih =>
    by_cases ha : a.title = ""
    · have hred : gnewsLoop classify (a :: rest) = gnewsLoop classify rest := by
        show (if a.title = "" then gnewsLoop classify rest else _) = gnewsLoop classify rest
        rw [if_pos ha]
      have hfil : (a :: rest).filter (fun a => decide (a.title ≠ ""))
          = rest.filter (fun a => decide (a.title ≠ "")) := by
        rw [List.filter_cons]
        simp [ha]
      rw [hred, hfil]
      exact ih
    · have hred : gnewsLoop classify (a :: rest)
          = (⟨"News", a.sourceName, a.title,
              asciiUpper (classify (a.title ++ ". " ++ a.description)), a.url, a.publishedAt⟩
              :: (gnewsLoop classify rest).1,
            (a.title ++ ". " ++ a.description) :: (gnewsLoop classify rest).2) := by
        show (if a.title = "" then gnewsLoop classify rest else _) = _
        rw [if_neg ha]
      have hfil : (a :: rest).filter (fun a => decide (a.title ≠ ""))
          = a :: rest.filter (fun a => decide (a.title ≠ "")) := by
        rw [List.filter_cons]
        simp [ha]
      rw [hred, hfil, List.length_cons, List.length_cons, ih]

def constClassify : String → String := fun _ => "POSITIVE"

/-- C4 counterexample: a Reddit fetch cycle over three valid posts makes
three classifier invocations, not one batched call. -/
theorem classifier_not_batched_cx :
    (fetch_reddit_mentions constClassify
      [⟨"t1", "s", "sub", "/p1", 1⟩, ⟨"t2", "s", "sub", "/p2", 2⟩,
        ⟨"t3", "s", "sub", "/p3", 3⟩]).2.length = 3 ∧
    (fetch_reddit_mentions constClassify
      [⟨"t1", "s", "sub", "/p1", 1⟩, ⟨"t2", "s", "sub", "/p2", 2⟩,
        ⟨"t3", "s", "sub", "/p3", 3⟩]).2.length ≠ 1 := by
  refine ⟨?_, ?_⟩ <;> decide

/-- C4 amended: in every fetch cycle the classifier is invoked once per
kept candidate item (inside the loop), not once per cycle: the Reddit
cycle makes one call per non-empty-title post, the primary news loop one
call per valid article, and a full news fetch with failover makes one
call per valid primary article plus, when the primary yields zero
mentions, one per valid failover article. -/
theorem classifier_called_once_per_item :
    (∀ (classify : String → String) (posts : List RedditPost),
      (fetch_reddit_mentions classify posts).2.length
        = (posts.filter (fun p => decide (p.title ≠ ""))).length) ∧
    (∀ (classify : String → String) (arts : List Article),
      (newsPrimaryLoop classify arts).2.length
        = (arts.filter (fun a => decide (¬ (a.title = "" ∨ a.title = "[Removed]")))).length) ∧
    (∀ (classify : String → String) (arts garts : List Article),
      (fetch_news_api classify (.ok arts) true (.ok garts)).2.length
        = (arts.filter (fun a => decide (¬ (a.title = "" ∨ a.title = "[Removed]")))).length
          + (if (arts.filter (fun a => decide (¬ (a.title = "" ∨ a.title = "[Removed]")))).length = 0
              then (garts.filter (fun a => decide (a.title ≠ ""))).length else 0)) := by
  refine ⟨fun classify posts => (fetch_reddit_lengths classify posts).1,
    fun classify arts => (newsPrimaryLoop_lengths classify arts).1,
    fun classify arts garts => ?_⟩
  have hp := newsPrimaryLoop_lengths classify arts
  have hg := gnewsLoop_lengths classify garts
  show (if ¬ (newsPrimaryLoop classify arts).1.isEmpty then newsPrimaryLoop classify arts
    else if true then
      ((newsPrimaryLoop classify arts).1 ++ (gnewsLoop classify garts).1,
        (newsPrimaryLoop classify arts).2 ++ (gnewsLoop classify garts).2)
    else newsPrimaryLoop classify arts).2.length = _
  by_cases hz : (arts.filter (fun a => decide (¬ (a.title = "" ∨ a.title = "[Removed]")))).length = 0
  · have hempty : (newsPrimaryLoop classify arts).1.isEmpty = true := by
      rw [List.isEmpty_iff, ← List.length_eq_zero, hp.2, hz]
    rw [hempty]
    simp only [not_true, if_false, if_true]
    rw [List.length_append, hp.1, hg, hz, if_pos rfl]
  · have hempty : (newsPrimaryLoop classify arts).1.isEmpty = false := by
      rw [List.isEmpty_eq_false_iff_exists_mem]
      have hlen : (newsPrimaryLoop classify arts).1.length ≠ 0 := by
        rw [hp.2]
        exact hz
      rcases List.exists_mem_of_ne_nil (newsPrimaryLoop classify arts).1
        (fun hnil => hlen (by rw [hnil]; rfl)) with ⟨x, hx⟩
      exact ⟨x, hx⟩
    rw [hempty]
    simp only [Bool.false_eq_true, not_false_eq_true, if_true]
    rw [hp.1, if_neg hz, Nat.add_zero]

end AnEarOut
